import Mathlib

/-!
Verification of `dbms/src/Functions/arrayDistinct.cpp` (function `arrayDistinct`).

The C++ source processes a flattened array column: a data buffer `values`,
a cumulative `offsets` sequence (one entry per row), and an optional null
bitmap parallel to the data buffer.  Three strategies (`executeNumber<T>`,
`executeString`, `executeHashed`) share one loop shape and differ only in
the equality key used for deduplication; we embed that shared loop once,
parameterised by the key function, and instantiate it three times.

The `ClearableHashSet` container used by all three strategies is not part
of the provided source tree.  Modelled from the spec: the per-row working
set maps an element-equality key to "seen" status, is cleared between rows,
and (for floats) compares keys by exact bit pattern with no tolerance; we
model the set as the list of values appended so far for the current row,
whose key images are exactly the set's contents, so `set.size()` equals the
number of values appended for the row.  Numeric values are modelled as
their bit patterns (`Nat`), for which the spec's exact bit-pattern equality
is Lean's equality.
-/

namespace ArrayDistinct

/-- The 128-bit hash codomain of the generic fallback (`UInt128` in the source). -/
abbrev U128 := Fin (2 ^ 128)

/-- The test `nullable_col && (*src_null_map)[j]` from the source: an element position is
null when a null column is present and its bitmap is set at that position. -/
def isNullAt (nm : Option (List Bool)) (j : Nat) : Bool :=
  match nm with
  | none => false
  | some m => m.getD j false

/-- Read `values[j]` of the flattened data buffer at position `j`. -/
def valueAt [Inhabited α] (vs : List α) (j : Nat) : α :=
  vs.getD j default

/-- The inner `for (j = prev_src_offset; j < curr_src_offset; ++j)` loop shared by
`executeNumber`, `executeString` and `executeHashed`: skip null positions, and
append `values[j]` iff its key is not in the per-row working set.  `acc` is the
list of values appended so far for the current row; its key image is the
working set's contents. -/
def rowLoop [Inhabited α] [DecidableEq κ] (key : α → κ) (vs : List α)
    (nm : Option (List Bool)) : List Nat → List α → List α
  | [], acc => acc
  | j :: js, acc =>
    if isNullAt nm j then
      rowLoop key vs nm js acc
    else if key (valueAt vs j) ∈ acc.map key then
      rowLoop key vs nm js acc
    else
      rowLoop key vs nm js (acc ++ [valueAt vs j])

/-- One row of the strategy loop: process positions `[lo, hi)` starting from a
cleared working set (`set.clear()` in the source). -/
def distinctRow [Inhabited α] [DecidableEq κ] (key : α → κ) (vs : List α)
    (nm : Option (List Bool)) (lo hi : Nat) : List α :=
  rowLoop key vs nm (List.range' lo (hi - lo)) []

/-- The outer `for (i = 0; i < src_offsets.size(); ++i)` loop: `prev` is
`prev_src_offset`, `resOff` is `res_offset`; each row appends its distinct
values to `res_data` and `res_offset + set.size()` to `res_offsets`
(`set.size()` equals the number of values appended for the row, since each
insert into the cleared set is paired with exactly one append). -/
def blockLoop [Inhabited α] [DecidableEq κ] (key : α → κ) (vs : List α)
    (nm : Option (List Bool)) : List Nat → Nat → Nat → List α × List Nat
  | [], _, _ => ([], [])
  | curr :: rest, prev, resOff =>
    let rowOut := distinctRow key vs nm prev curr
    let tail := blockLoop key vs nm rest curr (resOff + rowOut.length)
    (rowOut ++ tail.1, (resOff + rowOut.length) :: tail.2)

/-- The full strategy body shared by the three `execute*` functions, keyed by
`key`, on a block with data `vs`, offsets `offsets` and optional null map `nm`. -/
def executeBy [Inhabited α] [DecidableEq κ] (key : α → κ) (vs : List α)
    (offsets : List Nat) (nm : Option (List Bool)) : List α × List Nat :=
  blockLoop key vs nm offsets 0 0

/-- Strategy `FunctionArrayDistinct::executeNumber<T>` on a matching `ColumnVector<T>`:
values are the element bit patterns, the key is the value itself. -/
def executeNumber (vs : List Nat) (offsets : List Nat)
    (nm : Option (List Bool)) : List Nat × List Nat :=
  executeBy id vs offsets nm

/-- Strategy `FunctionArrayDistinct::executeString` on a matching `ColumnString`:
values are byte strings, the key is the byte content itself. -/
def executeString (vs : List (List Nat)) (offsets : List Nat)
    (nm : Option (List Bool)) : List (List Nat) × List Nat :=
  executeBy id vs offsets nm

/-- Strategy `FunctionArrayDistinct::executeHashed`.  Modelled from the spec: the
128-bit SipHash content hash of an element (`updateHashWithValue` +
`get128`, not in the provided source) is an abstract function
`h : α → U128` of the element's value; the appended value is the original
element (`insertFrom`), the key is its hash. -/
def executeHashed [Inhabited α] (h : α → U128) (vs : List α)
    (offsets : List Nat) (nm : Option (List Bool)) : List α × List Nat :=
  executeBy h vs offsets nm

/-! ### The spec-side characterisation used by the claims -/

/-- Position `j` of row `[lo, _)` is a first occurrence: it is non-null and no
earlier non-null position of the row holds a key-equal element. -/
def isFirstOcc [Inhabited α] [DecidableEq κ] (key : α → κ) (vs : List α)
    (nm : Option (List Bool)) (lo j : Nat) : Bool :=
  !isNullAt nm j &&
    (List.range' lo (j - lo)).all
      (fun j' => isNullAt nm j' || decide (key (valueAt vs j') ≠ key (valueAt vs j)))

/-- The first-occurrence positions of row `[lo, hi)`, in increasing order. -/
def firstOccs [Inhabited α] [DecidableEq κ] (key : α → κ) (vs : List α)
    (nm : Option (List Bool)) (lo hi : Nat) : List Nat :=
  (List.range' lo (hi - lo)).filter (isFirstOcc key vs nm lo)

/-- Offset `offsets[i-1]` with `offsets[-1] = 0`: the start of row `i`. -/
def prevOffset (offsets : List Nat) (i : Nat) : Nat :=
  if i = 0 then 0 else offsets.getD (i - 1) 0

/-- The data segment of row `i` as delimited by a cumulative offsets sequence. -/
def segOf (data : List α) (offsets : List Nat) (i : Nat) : List α :=
  (data.drop (prevOffset offsets i)).take (offsets.getD i 0 - prevOffset offsets i)

/-- Well-formed flattened array column (§3 of the spec): offsets non-decreasing,
every offset within the data buffer, null bitmap parallel to the data. -/
def chainLe : Nat → List Nat → Bool
  | _, [] => true
  | p, c :: rest => decide (p ≤ c) && chainLe c rest

def wfBlock (dataLen : Nat) (offsets : List Nat) (nm : Option (List Bool)) : Bool :=
  chainLe 0 offsets && offsets.all (fun o => decide (o ≤ dataLen)) &&
    (match nm with
     | none => true
     | some m => decide (m.length = dataLen))

/-! ### Helpers used by the proofs -/

/-- The `(prev_src_offset, curr_src_offset)` pairs visited by the outer loop. -/
def rowBounds : List Nat → Nat → List (Nat × Nat)
  | [], _ => []
  | c :: rest, prev => (prev, c) :: rowBounds rest c

/-- Cumulative sums starting from `r0`: the `res_offsets` produced from the
per-row distinct counts. -/
def cumSums (r0 : Nat) : List Nat → List Nat
  | [] => []
  | l :: ls => (r0 + l) :: cumSums (r0 + l) ls

/-- The per-row distinct outputs of a block, in row order. -/
def rowOuts [Inhabited α] [DecidableEq κ] (key : α → κ) (vs : List α)
    (nm : Option (List Bool)) (offsets : List Nat) (prev : Nat) : List (List α) :=
  (rowBounds offsets prev).map (fun b => distinctRow key vs nm b.1 b.2)

/-- The row pass expressed over the list of (value, null flag) pairs of the
row's slice, rather than over absolute buffer positions. -/
def pairPass [DecidableEq κ] (key : α → κ) : List α → List (α × Bool) → List α
  | acc, [] => acc
  | acc, p :: rest =>
    if p.2 then pairPass key acc rest
    else if key p.1 ∈ acc.map key then pairPass key acc rest
    else pairPass key (acc ++ [p.1]) rest

/-- Pair each data value with its null flag. -/
def withNulls (vs : List α) (nm : Option (List Bool)) : List (α × Bool) :=
  match nm with
  | none => vs.map (fun v => (v, false))
  | some m => vs.zip m

/-! ### Type dispatch (`executeImpl`) -/

/-- The ten numeric element types tried by `executeImpl`. -/
inductive NumTy where
  | uint8 | uint16 | uint32 | uint64
  | int8 | int16 | int32 | int64
  | float32 | float64
deriving DecidableEq

/-- The nested column after stripping one nullable layer (`inner_col`), tagged
by its concrete storage type: `ColumnVector<T>` for a numeric `T` (values as
bit patterns), `ColumnString`, or any other concrete column (`γ`). -/
inductive InnerColumn (γ : Type) where
  | vec (t : NumTy) (values : List Nat)
  | str (values : List (List Nat))
  | gen (values : List γ)

/-- The output column produced by `executeImpl`, of the same concrete kind as
the input's nested column. -/
inductive ResultColumn (γ : Type) where
  | vec (t : NumTy) (data : List Nat) (offsets : List Nat)
  | str (data : List (List Nat)) (offsets : List Nat)
  | gen (data : List γ) (offsets : List Nat)
deriving DecidableEq

/-- Applicability test of `executeNumber<T>` (`checkAndGetColumn<ColumnVector<T>>`):
it declines (no writes, returns `false` in the source, `none` here) unless the
concrete column is a numeric column with exactly tag `t`. -/
def tryNumber (t : NumTy) (col : InnerColumn γ) (offsets : List Nat)
    (nm : Option (List Bool)) : Option (List Nat × List Nat) :=
  match col with
  | .vec s vs => if s = t then some (executeNumber vs offsets nm) else none
  | _ => none

/-- Applicability test of `executeString` (`checkAndGetColumn<ColumnString>`). -/
def tryString (col : InnerColumn γ) (offsets : List Nat)
    (nm : Option (List Bool)) : Option (List (List Nat) × List Nat) :=
  match col with
  | .str vs => some (executeString vs offsets nm)
  | _ => none

/-- The fixed trial order of the numeric strategies in `executeImpl`. -/
def numOrder : List NumTy :=
  [.uint8, .uint16, .uint32, .uint64, .int8, .int16, .int32, .int64, .float32, .float64]

/-- Modelled from the spec: the SipHash-based 128-bit content hash used by
`executeHashed` (`updateHashWithValue` / `get128`, external to the provided
source), one abstract hash function per concrete column kind. -/
structure HashFns (γ : Type) where
  hNum : Nat → U128
  hStr : List Nat → U128
  hGen : γ → U128

/-- Fallback `executeHashed` invoked on the (already unwrapped) nested column, whatever
its concrete kind: the key is the element's 128-bit content hash. -/
def execHashedCol [Inhabited γ] (H : HashFns γ) (col : InnerColumn γ)
    (offsets : List Nat) (nm : Option (List Bool)) : ResultColumn γ :=
  match col with
  | .vec t vs =>
    .vec t (executeHashed H.hNum vs offsets nm).1 (executeHashed H.hNum vs offsets nm).2
  | .str vs =>
    .str (executeHashed H.hStr vs offsets nm).1 (executeHashed H.hStr vs offsets nm).2
  | .gen vs =>
    .gen (executeHashed H.hGen vs offsets nm).1 (executeHashed H.hGen vs offsets nm).2

/-- Dispatch of `FunctionArrayDistinct::executeImpl`: try
`executeNumber<T>` for the ten numeric types in `numOrder`, then
`executeString`, else fall back to `executeHashed`. -/
def executeImpl [Inhabited γ] (H : HashFns γ) (col : InnerColumn γ)
    (offsets : List Nat) (nm : Option (List Bool)) : ResultColumn γ :=
  match numOrder.findSome?
      (fun t => (tryNumber t col offsets nm).map (fun r => ResultColumn.vec t r.1 r.2)) with
  | some r => r
  | none =>
    match tryString col offsets nm with
    | some r => ResultColumn.str r.1 r.2
    | none => execHashedCol H col offsets nm

/-- The nested column of a result, viewed as an input again (the output column
carries no null map). -/
def ResultColumn.toInner : ResultColumn γ → InnerColumn γ
  | .vec t d _ => .vec t d
  | .str d _ => .str d
  | .gen d _ => .gen d

/-- The offsets of a result column. -/
def ResultColumn.outOffsets : ResultColumn γ → List Nat
  | .vec _ _ o => o
  | .str _ o => o
  | .gen _ o => o

/-! ### Type resolution (`getReturnTypeImpl`) -/

/-- The data types relevant to `getReturnTypeImpl`: arrays, the nullable
wrapper, numeric base types and strings. -/
inductive DataType where
  | array (nested : DataType)
  | nullable (nested : DataType)
  | number (t : NumTy)
  | string
deriving DecidableEq

def NumTy.typeName : NumTy → String
  | .uint8 => "UInt8"
  | .uint16 => "UInt16"
  | .uint32 => "UInt32"
  | .uint64 => "UInt64"
  | .int8 => "Int8"
  | .int16 => "Int16"
  | .int32 => "Int32"
  | .int64 => "Int64"
  | .float32 => "Float32"
  | .float64 => "Float64"

/-- Name of a type, as `IDataType::getName` renders the modelled types. -/
def DataType.getName : DataType → String
  | .array n => "Array(" ++ n.getName ++ ")"
  | .nullable n => "Nullable(" ++ n.getName ++ ")"
  | .number t => t.typeName
  | .string => "String"

/-- Strip one nullable layer if present (`removeNullable`). -/
def removeNullable : DataType → DataType
  | .nullable n => n
  | t => t

/-- Type resolution `FunctionArrayDistinct::getReturnTypeImpl`: the argument must be an array
type (`checkAndGetDataType<DataTypeArray>` matches exactly arrays), else an
`ILLEGAL_TYPE_OF_ARGUMENT` exception carrying the argument type's name; on
success, the array type of the non-nullable nested type.  The doubled space in
the message reproduces the source's string concatenation. -/
def getReturnTypeImpl (arg : DataType) : Except String DataType :=
  match arg with
  | .array nested => .ok (.array (removeNullable nested))
  | t =>
    .error ("Argument for function arrayDistinct must be array but it  has type "
      ++ DataType.getName t ++ ".")

/-- A quiet-NaN bit pattern of the 64-bit float type. -/
def float64NaNBits : Nat := 0x7FF8000000000000

/-- An injective 128-bit hash on small numeric inputs (collision-free case). -/
def modHash (x : Nat) : U128 := ⟨x % 2 ^ 128, Nat.mod_lt x (by norm_num)⟩

/-- A constant 128-bit hash: every pair of values collides. -/
def constHash (_ : Nat) : U128 := ⟨0, by norm_num⟩

/-! ## Lemmas about the row loop -/

theorem rowLoop_append [Inhabited α] [DecidableEq κ] (key : α → κ) (vs : List α)
    (nm : Option (List Bool)) (js ks : List Nat) (acc : List α) :
    rowLoop key vs nm (js ++ ks) acc = rowLoop key vs nm ks (rowLoop key vs nm js acc) := by
  induction js generalizing acc with
  | nil => rfl
  | cons j js ih =>
    simp only [List.cons_append, rowLoop]
    split
    · exact ih acc
    · split
      · exact ih acc
      · exact ih _

/-- The keys of the first occurrences of `[lo, lo+n)` are exactly the keys of
the non-null values of `[lo, lo+n)`. -/
theorem mem_firstOccs_keys [Inhabited α] [DecidableEq κ] (key : α → κ) (vs : List α)
    (nm : Option (List Bool)) (lo : Nat) (n : Nat) (x : α) :
    key x ∈ List.map key
        (((List.range' lo n).filter (isFirstOcc key vs nm lo)).map (valueAt vs)) ↔
      ∃ j ∈ List.range' lo n, isNullAt nm j = false ∧ key (valueAt vs j) = key x := by
  induction n with
  | zero => simp
  | succ n ih =>
    rw [List.range'_concat]
    simp only [Nat.one_mul, List.filter_append, List.map_append, List.mem_append,
      List.mem_singleton]
    constructor
    · rintro (h | h)
      · obtain ⟨j, hj, hnull, hkey⟩ := ih.mp h
        exact ⟨j, Or.inl hj, hnull, hkey⟩
      · rw [List.filter_singleton] at h
        cases hP : isFirstOcc key vs nm lo (lo + n) with
        | false =>
          rw [hP, Bool.cond_false, List.map_nil, List.map_nil] at h
          exact absurd h (List.not_mem_nil _)
        | true =>
          rw [hP, Bool.cond_true, List.map_cons, List.map_nil, List.map_cons,
            List.map_nil, List.mem_singleton] at h
          have h1 := hP
          unfold isFirstOcc at h1
          rw [Bool.and_eq_true] at h1
          have hnull : isNullAt nm (lo + n) = false := by
            have := h1.1
            rwa [Bool.not_eq_true'] at this
          exact ⟨lo + n, Or.inr rfl, hnull, h.symm⟩
    · rintro ⟨j, hj | hj, hnull, hkey⟩
      · exact Or.inl (ih.mpr ⟨j, hj, hnull, hkey⟩)
      · subst hj
        by_cases hP : isFirstOcc key vs nm lo (lo + n) = true
        · right
          rw [List.filter_singleton, hP, Bool.cond_true, List.map_cons, List.map_nil,
            List.map_cons, List.map_nil, List.mem_singleton]
          exact hkey.symm
        · left
          rw [Bool.not_eq_true] at hP
          unfold isFirstOcc at hP
          rw [hnull] at hP
          simp only [Bool.not_false, Bool.true_and, Nat.add_sub_cancel_left] at hP
          rw [List.all_eq_false] at hP
          obtain ⟨j', hj', hcond⟩ := hP
          have hnull' : isNullAt nm j' = false := by
            cases h' : isNullAt nm j' with
            | false => rfl
            | true => simp [h'] at hcond
          have hkey' : key (valueAt vs j') = key (valueAt vs (lo + n)) := by
            simp only [hnull', Bool.false_or, decide_eq_true_eq, not_not] at hcond
            exact hcond
          exact ih.mpr ⟨j', hj', hnull', hkey'.trans hkey⟩

/-- The row loop computes exactly the first-occurrence values. -/
theorem rowLoop_eq_firstOccs [Inhabited α] [DecidableEq κ] (key : α → κ) (vs : List α)
    (nm : Option (List Bool)) (lo : Nat) (n : Nat) :
    rowLoop key vs nm (List.range' lo n) [] =
      ((List.range' lo n).filter (isFirstOcc key vs nm lo)).map (valueAt vs) := by
  induction n with
  | zero => rfl
  | succ n ih =>
    rw [List.range'_concat, rowLoop_append, ih]
    simp only [Nat.one_mul]
    rw [List.filter_append, List.map_append, List.filter_singleton]
    by_cases hnull : isNullAt nm (lo + n) = true
    · have hP : isFirstOcc key vs nm lo (lo + n) = false := by
        unfold isFirstOcc
        rw [hnull]
        rfl
      rw [hP, Bool.cond_false, List.map_nil, List.append_nil]
      simp only [rowLoop]
      rw [if_pos hnull]
    · rw [Bool.not_eq_true] at hnull
      by_cases hmem : key (valueAt vs (lo + n)) ∈
          List.map key (((List.range' lo n).filter (isFirstOcc key vs nm lo)).map (valueAt vs))
      · have hP : isFirstOcc key vs nm lo (lo + n) = false := by
          obtain ⟨j, hj, hnull', hkey⟩ :=
            (mem_firstOccs_keys key vs nm lo n (valueAt vs (lo + n))).mp hmem
          unfold isFirstOcc
          rw [hnull]
          simp only [Bool.not_false, Bool.true_and, Nat.add_sub_cancel_left]
          rw [List.all_eq_false]
          refine ⟨j, hj, ?_⟩
          simp [hnull', hkey]
        rw [hP, Bool.cond_false, List.map_nil, List.append_nil]
        simp only [rowLoop]
        rw [if_neg (by rw [hnull]; exact Bool.false_ne_true), if_pos hmem]
      · have hP : isFirstOcc key vs nm lo (lo + n) = true := by
          unfold isFirstOcc
          rw [hnull]
          simp only [Bool.not_false, Bool.true_and, Nat.add_sub_cancel_left]
          rw [List.all_eq_true]
          intro j' hj'
          cases h' : isNullAt nm j' with
          | true => rfl
          | false =>
            simp only [Bool.false_or, decide_eq_true_eq]
            intro hkeq
            exact hmem ((mem_firstOccs_keys key vs nm lo n (valueAt vs (lo + n))).mpr
              ⟨j', hj', h', hkeq⟩)
        rw [hP, Bool.cond_true, List.map_cons, List.map_nil]
        simp only [rowLoop]
        rw [if_neg (by rw [hnull]; exact Bool.false_ne_true), if_neg hmem]

/-- The function `distinctRow` computes the first-occurrence values of the row. -/
theorem distinctRow_eq_firstOccs [Inhabited α] [DecidableEq κ] (key : α → κ)
    (vs : List α) (nm : Option (List Bool)) (lo hi : Nat) :
    distinctRow key vs nm lo hi = (firstOccs key vs nm lo hi).map (valueAt vs) := by
  unfold distinctRow firstOccs
  exact rowLoop_eq_firstOccs key vs nm lo (hi - lo)

/-- The keys of a row-loop output are pairwise distinct. -/
theorem rowLoop_keys_nodup [Inhabited α] [DecidableEq κ] (key : α → κ) (vs : List α)
    (nm : Option (List Bool)) (js : List Nat) (acc : List α)
    (h : (acc.map key).Nodup) : ((rowLoop key vs nm js acc).map key).Nodup := by
  induction js generalizing acc with
  | nil => exact h
  | cons j js ih =>
    simp only [rowLoop]
    split
    · exact ih acc h
    · split
      · exact ih acc h
      · rename_i hmem
        refine ih _ ?_
        simp only [List.map_append, List.map_cons, List.map_nil]
        rw [List.nodup_append]
        refine ⟨h, List.nodup_singleton _, ?_⟩
        intro a ha
        simp only [List.mem_singleton]
        intro hcontra
        subst hcontra
        exact hmem ha

/-! ## Lemmas about the block loop -/

theorem blockLoop_eq [Inhabited α] [DecidableEq κ] (key : α → κ) (vs : List α)
    (nm : Option (List Bool)) (offsets : List Nat) (prev r0 : Nat) :
    blockLoop key vs nm offsets prev r0 =
      ((rowOuts key vs nm offsets prev).flatten,
       cumSums r0 ((rowOuts key vs nm offsets prev).map List.length)) := by
  induction offsets generalizing prev r0 with
  | nil => rfl
  | cons c rest ih =>
    simp only [blockLoop, rowOuts, rowBounds, List.map_cons, List.flatten_cons, cumSums]
    rw [ih]
    simp [rowOuts]

theorem cumSums_length (r0 : Nat) (ls : List Nat) :
    (cumSums r0 ls).length = ls.length := by
  induction ls generalizing r0 with
  | nil => rfl
  | cons l ls ih => simp [cumSums, ih]

theorem cumSums_getD (r0 : Nat) (ls : List Nat) (i : Nat) (h : i < ls.length) :
    (cumSums r0 ls).getD i 0 = r0 + (ls.take (i + 1)).sum := by
  induction ls generalizing r0 i with
  | nil => simp at h
  | cons l ls ih =>
    cases i with
    | zero => simp [cumSums]
    | succ i =>
      simp only [cumSums, List.getD_cons_succ, List.take_succ_cons, List.sum_cons]
      rw [ih (r0 + l) i (by simpa using h), Nat.add_assoc]

theorem cumSums_le (r0 : Nat) (ls : List Nat) : ∀ x ∈ cumSums r0 ls, r0 ≤ x := by
  induction ls generalizing r0 with
  | nil => simp [cumSums]
  | cons l ls ih =>
    simp only [cumSums, List.mem_cons]
    rintro x (rfl | hx)
    · omega
    · have := ih (r0 + l) x hx
      omega

theorem cumSums_chain (r0 : Nat) (ls : List Nat) :
    List.Chain' (· ≤ ·) (cumSums r0 ls) := by
  induction ls generalizing r0 with
  | nil => exact List.chain'_nil
  | cons l ls ih =>
    simp only [cumSums]
    refine List.chain'_cons'.mpr ⟨?_, ih (r0 + l)⟩
    intro y hy
    have hmem : y ∈ cumSums (r0 + l) ls := List.mem_of_mem_head? hy
    have := cumSums_le (r0 + l) ls y hmem
    omega

theorem cumSums_getLastD (r0 : Nat) (ls : List Nat) :
    (cumSums r0 ls).getLastD r0 = r0 + ls.sum := by
  induction ls generalizing r0 with
  | nil => simp [cumSums]
  | cons l ls ih =>
    simp only [cumSums, List.sum_cons, List.getLastD_cons]
    rw [ih (r0 + l), Nat.add_assoc]

theorem rowBounds_length (offsets : List Nat) (prev : Nat) :
    (rowBounds offsets prev).length = offsets.length := by
  induction offsets generalizing prev with
  | nil => rfl
  | cons c rest ih => simp [rowBounds, ih]

theorem rowBounds_getD (offsets : List Nat) (prev : Nat) (i : Nat)
    (h : i < offsets.length) :
    (rowBounds offsets prev).getD i (0, 0) =
      (if i = 0 then prev else offsets.getD (i - 1) 0, offsets.getD i 0) := by
  induction offsets generalizing prev i with
  | nil => simp at h
  | cons c rest ih =>
    cases i with
    | zero => simp [rowBounds]
    | succ i =>
      simp only [rowBounds, List.getD_cons_succ]
      rw [ih c i (by simpa using h)]
      cases i with
      | zero => simp
      | succ i => simp

theorem rowOuts_length [Inhabited α] [DecidableEq κ] (key : α → κ) (vs : List α)
    (nm : Option (List Bool)) (offsets : List Nat) (prev : Nat) :
    (rowOuts key vs nm offsets prev).length = offsets.length := by
  unfold rowOuts
  rw [List.length_map, rowBounds_length]

theorem rowOuts_getD [Inhabited α] [DecidableEq κ] (key : α → κ) (vs : List α)
    (nm : Option (List Bool)) (offsets : List Nat) (prev : Nat) (i : Nat)
    (h : i < offsets.length) :
    (rowOuts key vs nm offsets prev).getD i [] =
      distinctRow key vs nm (if i = 0 then prev else offsets.getD (i - 1) 0)
        (offsets.getD i 0) := by
  unfold rowOuts
  have hb : i < (rowBounds offsets prev).length := by rw [rowBounds_length]; exact h
  rw [List.getD_eq_getElem _ _ (by simpa using hb), List.getElem_map,
    ← List.getD_eq_getElem _ (0, 0) hb, rowBounds_getD offsets prev i h]

theorem segOf_flatten (L : List (List α)) (i : Nat) (h : i < L.length) :
    segOf L.flatten (cumSums 0 (L.map List.length)) i = L.getD i [] := by
  have hlen : i < (L.map List.length).length := by simpa using h
  have hprev : prevOffset (cumSums 0 (L.map List.length)) i =
      ((L.map List.length).take i).sum := by
    unfold prevOffset
    cases i with
    | zero => simp
    | succ k =>
      rw [if_neg (Nat.succ_ne_zero k)]
      simp only [Nat.add_sub_cancel]
      rw [cumSums_getD 0 _ k (by omega)]
      simp
  have hcurr : (cumSums 0 (L.map List.length)).getD i 0 =
      ((L.map List.length).take (i + 1)).sum := by
    rw [cumSums_getD 0 _ i hlen]
    simp
  unfold segOf
  rw [hprev, hcurr, List.sum_take_succ _ i hlen]
  have hsub : ((L.map List.length).take i).sum + (L.map List.length)[i] -
      ((L.map List.length).take i).sum = (L.map List.length)[i] := by omega
  rw [hsub, List.drop_sum_flatten, List.getElem_map, List.drop_eq_getElem_cons h,
    List.flatten_cons, List.take_left, List.getD_eq_getElem _ _ h]

/-! ## Slice view of the row loop -/

/-- Null-map well-formedness: the bitmap, when present, is parallel to the data. -/
def wfNullMap (dataLen : Nat) (nm : Option (List Bool)) : Prop :=
  ∀ m, nm = some m → m.length = dataLen

theorem withNulls_length (vs : List α) (nm : Option (List Bool))
    (h : wfNullMap vs.length nm) : (withNulls vs nm).length = vs.length := by
  cases nm with
  | none => simp [withNulls]
  | some m =>
    simp only [withNulls, List.length_zip, h m rfl]
    exact Nat.min_self _

theorem withNulls_getElem [Inhabited α] (vs : List α) (nm : Option (List Bool))
    (h : wfNullMap vs.length nm) (j : Nat) (hj : j < (withNulls vs nm).length) :
    (withNulls vs nm)[j] = (valueAt vs j, isNullAt nm j) := by
  have hjv : j < vs.length := by rwa [withNulls_length vs nm h] at hj
  cases nm with
  | none =>
    simp only [withNulls] at hj ⊢
    rw [List.getElem_map]
    simp [valueAt, isNullAt, List.getElem?_eq_getElem hjv]
  | some m =>
    have hm : m.length = vs.length := h m rfl
    simp only [withNulls] at hj ⊢
    rw [List.getElem_zip]
    simp [valueAt, isNullAt, List.getElem?_eq_getElem hjv,
      List.getElem?_eq_getElem (by omega : j < m.length)]

/-- The indexed row loop equals the pass over the row's (value, null) slice. -/
theorem rowLoop_eq_pairPass [Inhabited α] [DecidableEq κ] (key : α → κ) (vs : List α)
    (nm : Option (List Bool)) (hnm : wfNullMap vs.length nm) (n : Nat) :
    ∀ lo acc, lo + n ≤ vs.length →
      rowLoop key vs nm (List.range' lo n) acc =
        pairPass key acc (((withNulls vs nm).drop lo).take n) := by
  induction n with
  | zero => intro lo acc _; rfl
  | succ n ih =>
    intro lo acc hle
    have hlo : lo < (withNulls vs nm).length := by
      rw [withNulls_length vs nm hnm]; omega
    rw [List.range'_succ, List.drop_eq_getElem_cons hlo, List.take_succ_cons,
      withNulls_getElem vs nm hnm lo hlo]
    simp only [rowLoop, pairPass]
    cases h0 : isNullAt nm lo with
    | true =>
      rw [if_pos rfl, if_pos rfl]
      exact ih (lo + 1) acc (by omega)
    | false =>
      rw [if_neg Bool.false_ne_true, if_neg Bool.false_ne_true]
      by_cases hmem : key (valueAt vs lo) ∈ acc.map key
      · rw [if_pos hmem, if_pos hmem]
        exact ih (lo + 1) acc (by omega)
      · rw [if_neg hmem, if_neg hmem]
        exact ih (lo + 1) (acc ++ [valueAt vs lo]) (by omega)

/-- A pass over an all-non-null slice whose keys are already distinct keeps it. -/
theorem pairPass_of_nodup [DecidableEq κ] (key : α → κ) (ps : List (α × Bool))
    (acc : List α) (hflag : ∀ p ∈ ps, p.2 = false)
    (hnd : ((ps.map Prod.fst).map key).Nodup)
    (hdisj : ∀ p ∈ ps, key p.1 ∉ acc.map key) :
    pairPass key acc ps = acc ++ ps.map Prod.fst := by
  induction ps generalizing acc with
  | nil => simp [pairPass]
  | cons p ps ih =>
    simp only [pairPass]
    rw [if_neg (by rw [hflag p (List.mem_cons_self p ps)]; exact Bool.false_ne_true),
      if_neg (hdisj p (List.mem_cons_self p ps))]
    rw [ih (acc ++ [p.1]) (fun q hq => hflag q (List.mem_cons_of_mem p hq))
      (by simp only [List.map_cons] at hnd; exact hnd.of_cons)
      ?_]
    · simp
    · intro q hq
      simp only [List.map_append, List.map_cons, List.map_nil, List.mem_append,
        List.mem_singleton]
      rintro (hmem | hmem)
      · exact hdisj q (List.mem_cons_of_mem p hq) hmem
      · simp only [List.map_cons, List.nodup_cons] at hnd
        exact hnd.1 (hmem ▸ List.mem_map_of_mem key (List.mem_map_of_mem Prod.fst hq))

/-- Re-running the block loop on a well-formed output of itself changes nothing. -/
theorem blockLoop_flatten_self [Inhabited α] [DecidableEq κ] (key : α → κ)
    (L : List (List α)) (hnd : ∀ l ∈ L, (l.map key).Nodup) :
    ∀ (pre : List α) (r0 : Nat),
      blockLoop key (pre ++ L.flatten) none (cumSums pre.length (L.map List.length))
        pre.length r0 = (L.flatten, cumSums r0 (L.map List.length)) := by
  induction L with
  | nil => intro pre r0; rfl
  | cons l L ih =>
    intro pre r0
    have hslice : ((withNulls (pre ++ (l ++ L.flatten)) none).drop pre.length).take
        l.length = l.map (fun v => (v, false)) := by
      simp only [withNulls]
      rw [← List.map_drop, List.drop_left, List.map_append,
        List.take_left' (by rw [List.length_map])]
    have hrow : distinctRow key (pre ++ (l ++ L.flatten)) none pre.length
        (pre.length + l.length) = l := by
      unfold distinctRow
      rw [Nat.add_sub_cancel_left,
        rowLoop_eq_pairPass key _ none (fun m hm => by cases hm) l.length pre.length []
          (by simp only [List.length_append]; omega),
        hslice,
        pairPass_of_nodup key (l.map fun v => (v, false)) []
          (fun p hp => by obtain ⟨v, _, rfl⟩ := List.mem_map.mp hp; rfl)
          (by simpa [Function.comp] using hnd l (List.mem_cons_self l L))
          (fun p _ => by simp)]
      rw [List.nil_append, List.map_map,
        show (Prod.fst ∘ fun v : α => (v, false)) = id from rfl, List.map_id]
    have hmain := ih (fun x hx => hnd x (List.mem_cons_of_mem l hx)) (pre ++ l)
      (r0 + l.length)
    rw [List.append_assoc] at hmain
    simp only [List.length_append] at hmain
    simp only [List.flatten_cons, List.map_cons, cumSums, blockLoop]
    rw [hrow, hmain]

/-! ## Idempotence and dispatch lemmas -/

theorem distinctRow_keys_nodup [Inhabited α] [DecidableEq κ] (key : α → κ)
    (vs : List α) (nm : Option (List Bool)) (lo hi : Nat) :
    ((distinctRow key vs nm lo hi).map key).Nodup :=
  rowLoop_keys_nodup key vs nm _ [] (by simp)

theorem executeBy_idem [Inhabited α] [DecidableEq κ] (key : α → κ) (vs : List α)
    (offsets : List Nat) (nm : Option (List Bool)) :
    executeBy key (executeBy key vs offsets nm).1 (executeBy key vs offsets nm).2 none
      = executeBy key vs offsets nm := by
  unfold executeBy
  rw [blockLoop_eq key vs nm offsets 0 0]
  have hnd : ∀ l ∈ rowOuts key vs nm offsets 0, (l.map key).Nodup := by
    intro l hl
    obtain ⟨b, _, rfl⟩ := List.mem_map.mp hl
    exact distinctRow_keys_nodup key vs nm b.1 b.2
  have h := blockLoop_flatten_self key (rowOuts key vs nm offsets 0) hnd [] 0
  simpa using h

theorem executeImpl_vec [Inhabited γ] (H : HashFns γ) (t : NumTy) (vs : List Nat)
    (offsets : List Nat) (nm : Option (List Bool)) :
    executeImpl H (.vec t vs) offsets nm
      = .vec t (executeNumber vs offsets nm).1 (executeNumber vs offsets nm).2 := by
  cases t <;> rfl

theorem executeImpl_str [Inhabited γ] (H : HashFns γ) (vs : List (List Nat))
    (offsets : List Nat) (nm : Option (List Bool)) :
    executeImpl H (.str vs) offsets nm
      = .str (executeString vs offsets nm).1 (executeString vs offsets nm).2 := rfl

theorem executeImpl_gen [Inhabited γ] (H : HashFns γ) (vs : List γ)
    (offsets : List Nat) (nm : Option (List Bool)) :
    executeImpl H (.gen vs) offsets nm
      = .gen (executeHashed H.hGen vs offsets nm).1 (executeHashed H.hGen vs offsets nm).2 :=
  rfl

/-! ## Per-row views of the block result -/

theorem executeBy_fst [Inhabited α] [DecidableEq κ] (key : α → κ) (vs : List α)
    (offsets : List Nat) (nm : Option (List Bool)) :
    (executeBy key vs offsets nm).1 = (rowOuts key vs nm offsets 0).flatten := by
  unfold executeBy
  rw [blockLoop_eq]

theorem executeBy_snd [Inhabited α] [DecidableEq κ] (key : α → κ) (vs : List α)
    (offsets : List Nat) (nm : Option (List Bool)) :
    (executeBy key vs offsets nm).2
      = cumSums 0 ((rowOuts key vs nm offsets 0).map List.length) := by
  unfold executeBy
  rw [blockLoop_eq]

theorem prevOffset_cumSums (ls : List Nat) (i : Nat) (h : i < ls.length) :
    prevOffset (cumSums 0 ls) i = (ls.take i).sum := by
  unfold prevOffset
  cases i with
  | zero => simp
  | succ k =>
    rw [if_neg (Nat.succ_ne_zero k), Nat.succ_sub_one, cumSums_getD 0 ls k (by omega)]
    simp

theorem executeBy_row_len [Inhabited α] [DecidableEq κ] (key : α → κ) (vs : List α)
    (nm : Option (List Bool)) (offsets : List Nat) (i : Nat) (h : i < offsets.length) :
    ((rowOuts key vs nm offsets 0).map List.length).getD i 0
      = (distinctRow key vs nm (prevOffset offsets i) (offsets.getD i 0)).length := by
  have h1 : i < (rowOuts key vs nm offsets 0).length := by rw [rowOuts_length]; exact h
  rw [List.getD_eq_getElem _ _ (by simpa using h1), List.getElem_map,
    ← List.getD_eq_getElem _ ([] : List α) h1, rowOuts_getD key vs nm offsets 0 i h]
  rfl

theorem executeBy_curr [Inhabited α] [DecidableEq κ] (key : α → κ) (vs : List α)
    (nm : Option (List Bool)) (offsets : List Nat) (i : Nat) (h : i < offsets.length) :
    (executeBy key vs offsets nm).2.getD i 0
      = prevOffset (executeBy key vs offsets nm).2 i
        + (distinctRow key vs nm (prevOffset offsets i) (offsets.getD i 0)).length := by
  rw [executeBy_snd]
  have hl : i < ((rowOuts key vs nm offsets 0).map List.length).length := by
    rw [List.length_map, rowOuts_length]; exact h
  rw [cumSums_getD 0 _ i hl, prevOffset_cumSums _ i hl, List.sum_take_succ _ i hl,
    Nat.zero_add]
  have hrl := executeBy_row_len key vs nm offsets i h
  rw [List.getD_eq_getElem _ 0 hl] at hrl
  rw [hrl]

theorem executeBy_delta [Inhabited α] [DecidableEq κ] (key : α → κ) (vs : List α)
    (nm : Option (List Bool)) (offsets : List Nat) (i : Nat) (h : i < offsets.length) :
    (executeBy key vs offsets nm).2.getD i 0
        - prevOffset (executeBy key vs offsets nm).2 i
      = (distinctRow key vs nm (prevOffset offsets i) (offsets.getD i 0)).length := by
  rw [executeBy_curr key vs nm offsets i h, Nat.add_sub_cancel_left]

/-! ## Claim theorems -/

/-- C1: for every input block, every row `i`, and whichever strategy processes
the block (the key function `key` is the strategy's equality key: the value for
the numeric strategy, the byte content for the string strategy, the 128-bit
content hash for the generic fallback), the output data segment for row `i` is
exactly the row's distinct non-null elements in first-occurrence order: the
value at position `j` is appended iff no earlier non-null position of the row
holds a key-equal element, and appended elements appear in first-occurrence
order. -/
theorem claim1_first_occurrence_order [Inhabited α] [DecidableEq κ] (key : α → κ)
    (vs : List α) (nm : Option (List Bool)) (offsets : List Nat) (i : Nat)
    (h : i < offsets.length) :
    segOf (executeBy key vs offsets nm).1 (executeBy key vs offsets nm).2 i
      = (firstOccs key vs nm (prevOffset offsets i) (offsets.getD i 0)).map (valueAt vs) := by
  rw [executeBy_fst, executeBy_snd,
    segOf_flatten _ i (by rw [rowOuts_length]; exact h),
    rowOuts_getD key vs nm offsets 0 i h, distinctRow_eq_firstOccs]
  rfl

/-- Witness for C1 at a concrete block: `[[5, 7, 5], [7]]` with the middle
element of row 0 null; row 0's segment is `[5]`. -/
theorem claim1_witness :
    segOf (executeBy id [5, 7, 5] [3, 4] (some [false, true, false])).1
        (executeBy id [5, 7, 5] [3, 4] (some [false, true, false])).2 0
      = (firstOccs id [5, 7, 5] (some [false, true, false]) (prevOffset [3, 4] 0)
          ([3, 4].getD 0 0)).map (valueAt [5, 7, 5]) :=
  claim1_first_occurrence_order id [5, 7, 5] (some [false, true, false]) [3, 4] 0
    (by decide)

/-- C2: the output is a well-formed flattened column: one output offset per
input row, offsets non-decreasing, last offset equal to the output data length,
each offset difference equal to the number of distinct non-null elements of the
corresponding input row (the length of its first-occurrence list) and bounded
by the row's input element count, and a row with zero elements leaves the
cumulative total unchanged. -/
theorem claim2_offsets_invariants [Inhabited α] [DecidableEq κ] (key : α → κ)
    (vs : List α) (nm : Option (List Bool)) (offsets : List Nat) :
    (executeBy key vs offsets nm).2.length = offsets.length
    ∧ List.Chain' (· ≤ ·) (executeBy key vs offsets nm).2
    ∧ (executeBy key vs offsets nm).2.getLastD 0 = (executeBy key vs offsets nm).1.length
    ∧ ∀ i, i < offsets.length →
        ((executeBy key vs offsets nm).2.getD i 0
              - prevOffset (executeBy key vs offsets nm).2 i
            = (firstOccs key vs nm (prevOffset offsets i) (offsets.getD i 0)).length
          ∧ (executeBy key vs offsets nm).2.getD i 0
              - prevOffset (executeBy key vs offsets nm).2 i
            ≤ offsets.getD i 0 - prevOffset offsets i
          ∧ (offsets.getD i 0 = prevOffset offsets i →
              (executeBy key vs offsets nm).2.getD i 0
                = prevOffset (executeBy key vs offsets nm).2 i)) := by
  refine ⟨?_, ?_, ?_, ?_⟩
  · rw [executeBy_snd, cumSums_length, List.length_map, rowOuts_length]
  · rw [executeBy_snd]
    exact cumSums_chain 0 _
  · rw [executeBy_snd, executeBy_fst, cumSums_getLastD, List.length_flatten,
      Nat.zero_add]
  · intro i h
    refine ⟨?_, ?_, ?_⟩
    · rw [executeBy_delta key vs nm offsets i h, distinctRow_eq_firstOccs,
        List.length_map]
    · rw [executeBy_delta key vs nm offsets i h, distinctRow_eq_firstOccs,
        List.length_map]
      calc (firstOccs key vs nm (prevOffset offsets i) (offsets.getD i 0)).length
          ≤ (List.range' (prevOffset offsets i)
              (offsets.getD i 0 - prevOffset offsets i)).length :=
            List.length_filter_le _ _
        _ = offsets.getD i 0 - prevOffset offsets i := List.length_range' _ _ _
    · intro hempty
      rw [executeBy_curr key vs nm offsets i h]
      have : distinctRow key vs nm (prevOffset offsets i) (offsets.getD i 0) = [] := by
        unfold distinctRow
        rw [hempty, Nat.sub_self]
        rfl
      rw [this]
      rfl

/-- Witness for C2 at the spec's scenario block `[[1,2,2,3],[4,4,4],[]]`. -/
theorem claim2_witness :
    (executeBy id [1, 2, 2, 3, 4, 4, 4] [4, 7, 7] none).2.getD 1 0
        - prevOffset (executeBy id [1, 2, 2, 3, 4, 4, 4] [4, 7, 7] none).2 1
      ≤ [4, 7, 7].getD 1 0 - prevOffset [4, 7, 7] 1 :=
  ((claim2_offsets_invariants id [1, 2, 2, 3, 4, 4, 4] none [4, 7, 7]).2.2.2 1
    (by decide)).2.1

/-- C3: the operation is idempotent: applying `executeImpl` to its own output
column (which carries no null map) yields that output unchanged, for every
input block and every strategy. -/
theorem claim3_idempotent {γ : Type} [Inhabited γ] (H : HashFns γ)
    (col : InnerColumn γ) (offsets : List Nat) (nm : Option (List Bool)) :
    executeImpl H (executeImpl H col offsets nm).toInner
        (executeImpl H col offsets nm).outOffsets none
      = executeImpl H col offsets nm := by
  cases col with
  | vec t vs =>
    rw [executeImpl_vec H t vs offsets nm]
    simp only [ResultColumn.toInner, ResultColumn.outOffsets]
    rw [executeImpl_vec H t _ _ none]
    unfold executeNumber
    rw [executeBy_idem]
  | str vs =>
    rw [executeImpl_str H vs offsets nm]
    simp only [ResultColumn.toInner, ResultColumn.outOffsets]
    rw [executeImpl_str H _ _ none]
    unfold executeString
    rw [executeBy_idem]
  | gen vs =>
    rw [executeImpl_gen H vs offsets nm]
    simp only [ResultColumn.toInner, ResultColumn.outOffsets]
    rw [executeImpl_gen H _ _ none]
    unfold executeHashed
    rw [executeBy_idem]

/-- C5: type resolution succeeds exactly on array argument types, returning
the array of the non-nullable nested type, derived purely from the argument
type; on any non-array type it fails with a type error whose message carries
the offending type's textual name. -/
theorem claim5_type_resolution :
    (∀ nested : DataType,
        getReturnTypeImpl (.array nested) = .ok (.array (removeNullable nested)))
    ∧ (∀ arg : DataType, (¬ ∃ nested, arg = .array nested) →
        getReturnTypeImpl arg =
          .error ("Argument for function arrayDistinct must be array but it  has type "
            ++ DataType.getName arg ++ "."))
    ∧ (∀ arg r, getReturnTypeImpl arg = .ok r →
        ∃ nested, arg = .array nested ∧ r = .array (removeNullable nested)) := by
  refine ⟨fun nested => rfl, ?_, ?_⟩
  · intro arg hne
    cases arg with
    | array nested => exact absurd ⟨nested, rfl⟩ hne
    | nullable n => rfl
    | number t => rfl
    | string => rfl
  · intro arg r hok
    cases arg with
    | array nested =>
      refine ⟨nested, rfl, ?_⟩
      simpa [getReturnTypeImpl] using hok.symm
    | nullable n => exact absurd hok (by simp [getReturnTypeImpl])
    | number t => exact absurd hok (by simp [getReturnTypeImpl])
    | string => exact absurd hok (by simp [getReturnTypeImpl])

/-- Witness for C5: a nullable-nested array argument and a plain numeric
argument. -/
theorem claim5_witness :
    getReturnTypeImpl (.array (.nullable (.number .uint8)))
        = .ok (.array (.number .uint8))
    ∧ getReturnTypeImpl (.number .uint8) =
        .error ("Argument for function arrayDistinct must be array but it  has type "
          ++ DataType.getName (.number .uint8) ++ ".") :=
  ⟨claim5_type_resolution.1 (.nullable (.number .uint8)),
   claim5_type_resolution.2.1 (.number .uint8) (by rintro ⟨n, h⟩; cases h)⟩

/-- C6: the dispatcher tries the numeric strategies in the fixed order of
`numOrder`, then the string strategy, then the generic-hash fallback; the
choice is determined by the concrete storage type of the nested column, exactly
one strategy processes the block, and any strategy whose concrete type does not
match declines (returns `none`, performing no writes). -/
theorem claim6_dispatch {γ : Type} [Inhabited γ] (H : HashFns γ) (offsets : List Nat)
    (nm : Option (List Bool)) :
    numOrder = [.uint8, .uint16, .uint32, .uint64, .int8, .int16, .int32, .int64,
      .float32, .float64]
    ∧ (∀ (t : NumTy) (vs : List Nat),
        executeImpl H (.vec t vs) offsets nm
            = .vec t (executeNumber vs offsets nm).1 (executeNumber vs offsets nm).2
          ∧ (∀ t', tryNumber t' (InnerColumn.vec t vs : InnerColumn γ) offsets nm
              = if t = t' then some (executeNumber vs offsets nm) else none)
          ∧ tryString (InnerColumn.vec t vs : InnerColumn γ) offsets nm = none)
    ∧ (∀ vs : List (List Nat),
        executeImpl H (.str vs) offsets nm
            = .str (executeString vs offsets nm).1 (executeString vs offsets nm).2
          ∧ (∀ t', tryNumber t' (InnerColumn.str vs : InnerColumn γ) offsets nm = none)
          ∧ tryString (InnerColumn.str vs : InnerColumn γ) offsets nm
              = some (executeString vs offsets nm))
    ∧ (∀ vs : List γ,
        executeImpl H (.gen vs) offsets nm
            = .gen (executeHashed H.hGen vs offsets nm).1
                (executeHashed H.hGen vs offsets nm).2
          ∧ (∀ t', tryNumber t' (InnerColumn.gen vs) offsets nm = none)
          ∧ tryString (InnerColumn.gen vs) offsets nm = none) := by
  refine ⟨rfl, ?_, ?_, ?_⟩
  · intro t vs
    exact ⟨executeImpl_vec H t vs offsets nm, fun t' => rfl, rfl⟩
  · intro vs
    exact ⟨executeImpl_str H vs offsets nm, fun t' => rfl, rfl⟩
  · intro vs
    exact ⟨executeImpl_gen H vs offsets nm, fun t' => rfl, rfl⟩

theorem isFirstOcc_nonnull [Inhabited α] [DecidableEq κ] {key : α → κ} {vs : List α}
    {nm : Option (List Bool)} {lo j : Nat} (h : isFirstOcc key vs nm lo j = true) :
    isNullAt nm j = false := by
  unfold isFirstOcc at h
  rw [Bool.and_eq_true] at h
  have h1 := h.1
  rwa [Bool.not_eq_true'] at h1

/-- Every position of a row is a first occurrence iff the row has no null
position and the row's keys are pairwise distinct. -/
theorem allFirstOcc_iff [Inhabited α] [DecidableEq κ] (key : α → κ) (vs : List α)
    (nm : Option (List Bool)) (lo n : Nat) :
    (∀ j ∈ List.range' lo n, isFirstOcc key vs nm lo j = true) ↔
      (∀ j ∈ List.range' lo n, isNullAt nm j = false)
      ∧ ((List.range' lo n).map (fun j => key (valueAt vs j))).Nodup := by
  constructor
  · intro hall
    refine ⟨fun j hj => isFirstOcc_nonnull (hall j hj), ?_⟩
    rw [List.Nodup, List.pairwise_map, List.pairwise_iff_getElem]
    intro a b ha hb hab
    rw [List.length_range'] at ha hb
    rw [List.getElem_range', List.getElem_range']
    simp only [Nat.one_mul]
    have hjb : lo + b ∈ List.range' lo n := by
      rw [List.mem_range'_1]; omega
    have hFb := hall _ hjb
    unfold isFirstOcc at hFb
    rw [Bool.and_eq_true] at hFb
    have hallb := hFb.2
    rw [List.all_eq_true] at hallb
    have hmem : lo + a ∈ List.range' lo (lo + b - lo) := by
      rw [Nat.add_sub_cancel_left, List.mem_range'_1]; omega
    have hcond := hallb _ hmem
    have hnulla : isNullAt nm (lo + a) = false :=
      isFirstOcc_nonnull (hall _ (by rw [List.mem_range'_1]; omega))
    rw [hnulla, Bool.false_or, decide_eq_true_eq] at hcond
    exact hcond
  · rintro ⟨hnull, hnd⟩
    intro j hj
    rw [List.mem_range'_1] at hj
    unfold isFirstOcc
    rw [Bool.and_eq_true]
    refine ⟨?_, ?_⟩
    · rw [Bool.not_eq_true']
      exact hnull j (by rw [List.mem_range'_1]; omega)
    · rw [List.all_eq_true]
      intro j' hj'
      rw [List.mem_range'_1] at hj'
      cases h' : isNullAt nm j' with
      | true => rfl
      | false =>
        rw [Bool.false_or, decide_eq_true_eq]
        rw [List.Nodup, List.pairwise_map, List.pairwise_iff_getElem] at hnd
        have ha : j' - lo < (List.range' lo n).length := by
          rw [List.length_range']; omega
        have hb : j - lo < (List.range' lo n).length := by
          rw [List.length_range']; omega
        have hne := hnd (j' - lo) (j - lo) ha hb (by omega)
        rw [List.getElem_range', List.getElem_range'] at hne
        have e1 : lo + 1 * (j' - lo) = j' := by omega
        have e2 : lo + 1 * (j - lo) = j := by omega
        rw [e1, e2] at hne
        exact hne

/-- C4: for every input row of the numeric strategy, the output row length is
at most the input row length, with equality iff the input row already had no
null elements and no duplicate values. -/
theorem claim4_cardinality_bound (vs : List Nat) (nm : Option (List Bool))
    (offsets : List Nat) (i : Nat) (h : i < offsets.length) :
    (executeNumber vs offsets nm).2.getD i 0
        - prevOffset (executeNumber vs offsets nm).2 i
      ≤ offsets.getD i 0 - prevOffset offsets i
    ∧ ((executeNumber vs offsets nm).2.getD i 0
          - prevOffset (executeNumber vs offsets nm).2 i
        = offsets.getD i 0 - prevOffset offsets i ↔
      (∀ j ∈ List.range' (prevOffset offsets i)
          (offsets.getD i 0 - prevOffset offsets i), isNullAt nm j = false)
      ∧ ((List.range' (prevOffset offsets i)
          (offsets.getD i 0 - prevOffset offsets i)).map (valueAt vs)).Nodup) := by
  unfold executeNumber
  rw [executeBy_delta id vs nm offsets i h, distinctRow_eq_firstOccs, List.length_map]
  unfold firstOccs
  have hlr : (List.range' (prevOffset offsets i)
      (offsets.getD i 0 - prevOffset offsets i)).length
      = offsets.getD i 0 - prevOffset offsets i := List.length_range' _ _ _
  constructor
  · calc ((List.range' (prevOffset offsets i)
          (offsets.getD i 0 - prevOffset offsets i)).filter
            (isFirstOcc id vs nm (prevOffset offsets i))).length
        ≤ (List.range' (prevOffset offsets i)
            (offsets.getD i 0 - prevOffset offsets i)).length :=
          List.length_filter_le _ _
      _ = offsets.getD i 0 - prevOffset offsets i := hlr
  · have h1 : ((List.range' (prevOffset offsets i)
        (offsets.getD i 0 - prevOffset offsets i)).filter
          (isFirstOcc id vs nm (prevOffset offsets i))).length
        = offsets.getD i 0 - prevOffset offsets i
      ↔ ((List.range' (prevOffset offsets i)
          (offsets.getD i 0 - prevOffset offsets i)).filter
            (isFirstOcc id vs nm (prevOffset offsets i))).length
        = (List.range' (prevOffset offsets i)
            (offsets.getD i 0 - prevOffset offsets i)).length := by
      rw [hlr]
    rw [h1, List.filter_length_eq_length]
    have hiff := allFirstOcc_iff id vs nm (prevOffset offsets i)
      (offsets.getD i 0 - prevOffset offsets i)
    simp only [id_eq] at hiff
    exact hiff

/-- Witness for C4 at the row `[1, 2, 2]`. -/
theorem claim4_witness :
    (executeNumber [1, 2, 2] [3] none).2.getD 0 0
        - prevOffset (executeNumber [1, 2, 2] [3] none).2 0
      ≤ [3].getD 0 0 - prevOffset [3] 0
    ∧ ((executeNumber [1, 2, 2] [3] none).2.getD 0 0
          - prevOffset (executeNumber [1, 2, 2] [3] none).2 0
        = [3].getD 0 0 - prevOffset [3] 0 ↔
      (∀ j ∈ List.range' (prevOffset [3] 0) ([3].getD 0 0 - prevOffset [3] 0),
          isNullAt none j = false)
      ∧ ((List.range' (prevOffset [3] 0)
          ([3].getD 0 0 - prevOffset [3] 0)).map (valueAt [1, 2, 2])).Nodup) :=
  claim4_cardinality_bound [1, 2, 2] none [3] 0 (by decide)

/-- C8: the numeric strategy deduplicates by exact value equality on the
element's bit pattern with no tolerance: equal values (including two NaNs of
identical bit pattern) collapse to one occurrence, and distinct bit patterns
are never conflated. -/
theorem claim8_exact_equality :
    (∀ v : Nat, executeNumber [v, v] [2] none = ([v], [1]))
    ∧ (∀ a b : Nat, a ≠ b → executeNumber [a, b] [2] none = ([a, b], [2]))
    ∧ executeNumber [float64NaNBits, float64NaNBits] [2] none
        = ([float64NaNBits], [1]) := by
  have h1 : ∀ v : Nat, executeNumber [v, v] [2] none = ([v], [1]) := by
    intro v
    simp [executeNumber, executeBy, blockLoop, distinctRow, rowLoop, valueAt,
      isNullAt, List.range']
  refine ⟨h1, ?_, h1 float64NaNBits⟩
  intro a b h
  simp [executeNumber, executeBy, blockLoop, distinctRow, rowLoop, valueAt,
    isNullAt, List.range', h.symm]

/-- Witness for C8's distinctness part at `0 ≠ 1`. -/
theorem claim8_witness : executeNumber [0, 1] [2] none = ([0, 1], [2]) :=
  claim8_exact_equality.2.1 0 1 (by decide)

/-- Data at null positions never flows to the output: with the same null map
and the same values at non-null positions, the row loop is unchanged. -/
theorem rowLoop_congr [Inhabited α] [DecidableEq κ] (key : α → κ) (vs₁ vs₂ : List α)
    (nm : Option (List Bool))
    (h : ∀ j, isNullAt nm j = false → valueAt vs₁ j = valueAt vs₂ j) :
    ∀ js acc, rowLoop key vs₁ nm js acc = rowLoop key vs₂ nm js acc := by
  intro js
  induction js with
  | nil => intro acc; rfl
  | cons j js ih =>
    intro acc
    simp only [rowLoop]
    cases h0 : isNullAt nm j with
    | true =>
      rw [if_pos rfl, if_pos rfl]
      exact ih acc
    | false =>
      rw [if_neg Bool.false_ne_true, if_neg Bool.false_ne_true, h j h0]
      by_cases hmem : key (valueAt vs₂ j) ∈ acc.map key
      · rw [if_pos hmem, if_pos hmem]
        exact ih acc
      · rw [if_neg hmem, if_neg hmem]
        exact ih _

theorem blockLoop_congr [Inhabited α] [DecidableEq κ] (key : α → κ) (vs₁ vs₂ : List α)
    (nm : Option (List Bool))
    (h : ∀ j, isNullAt nm j = false → valueAt vs₁ j = valueAt vs₂ j) :
    ∀ offsets prev r0,
      blockLoop key vs₁ nm offsets prev r0 = blockLoop key vs₂ nm offsets prev r0 := by
  intro offsets
  induction offsets with
  | nil => intro prev r0; rfl
  | cons c rest ih =>
    intro prev r0
    have hrow : distinctRow key vs₁ nm prev c = distinctRow key vs₂ nm prev c := by
      unfold distinctRow
      exact rowLoop_congr key vs₁ vs₂ nm h _ []
    simp only [blockLoop]
    rw [hrow, ih]

/-- C9: the output never depends on data stored at null positions: two data
buffers with the same offsets and null map that agree at every non-null
position produce identical outputs, for every strategy key. -/
theorem claim9_null_noninterference [Inhabited α] [DecidableEq κ] (key : α → κ)
    (vs₁ vs₂ : List α) (nm : Option (List Bool)) (offsets : List Nat)
    (h : ∀ j, isNullAt nm j = false → valueAt vs₁ j = valueAt vs₂ j) :
    executeBy key vs₁ offsets nm = executeBy key vs₂ offsets nm := by
  unfold executeBy
  exact blockLoop_congr key vs₁ vs₂ nm h offsets 0 0

/-- Witness for C9: `[9, 4]` and `[7, 4]` under null map `[true, false]`. -/
theorem claim9_witness :
    executeBy id [9, 4] [2] (some [true, false])
      = executeBy id [7, 4] [2] (some [true, false]) :=
  claim9_null_noninterference id [9, 4] [7, 4] (some [true, false]) [2]
    (fun j hj => by
      match j with
      | 0 => simp [isNullAt] at hj
      | 1 => rfl
      | (n + 2) => rfl)

/-- When the key function is injective on the data buffer, keying by it is the
same as keying by the value itself. -/
theorem rowLoop_key_inj [Inhabited α] [DecidableEq α] [DecidableEq κ] (h : α → κ)
    (vs : List α) (nm : Option (List Bool))
    (hinj : ∀ x ∈ vs, ∀ y ∈ vs, h x = h y → x = y) :
    ∀ js, (∀ j ∈ js, j < vs.length) → ∀ acc, (∀ a ∈ acc, a ∈ vs) →
      rowLoop h vs nm js acc = rowLoop id vs nm js acc := by
  intro js
  induction js with
  | nil => intro _ acc _; rfl
  | cons j js ih =>
    intro hjs acc hacc
    have hjlen : j < vs.length := hjs j (List.mem_cons_self j js)
    have hv : valueAt vs j ∈ vs := by
      unfold valueAt
      rw [List.getD_eq_getElem vs default hjlen]
      exact List.getElem_mem hjlen
    simp only [rowLoop]
    cases h0 : isNullAt nm j with
    | true =>
      rw [if_pos rfl, if_pos rfl]
      exact ih (fun j' hj' => hjs j' (List.mem_cons_of_mem j hj')) acc hacc
    | false =>
      rw [if_neg Bool.false_ne_true, if_neg Bool.false_ne_true]
      have hmem_iff : h (valueAt vs j) ∈ acc.map h ↔ id (valueAt vs j) ∈ acc.map id := by
        simp only [List.map_id, id_eq]
        constructor
        · intro hm
          obtain ⟨a, ha, hae⟩ := List.mem_map.mp hm
          have := hinj a (hacc a ha) (valueAt vs j) hv hae
          rwa [← this]
        · intro hm
          exact List.mem_map_of_mem h hm
      by_cases hmem : h (valueAt vs j) ∈ acc.map h
      · rw [if_pos hmem, if_pos (hmem_iff.mp hmem)]
        exact ih (fun j' hj' => hjs j' (List.mem_cons_of_mem j hj')) acc hacc
      · rw [if_neg hmem, if_neg (fun hc => hmem (hmem_iff.mpr hc))]
        refine ih (fun j' hj' => hjs j' (List.mem_cons_of_mem j hj'))
          (acc ++ [valueAt vs j]) ?_
        intro a ha
        rcases List.mem_append.mp ha with ha | ha
        · exact hacc a ha
        · rw [List.mem_singleton] at ha
          exact ha ▸ hv

theorem executeBy_key_inj [Inhabited α] [DecidableEq α] [DecidableEq κ] (h : α → κ)
    (vs : List α) (offsets : List Nat) (nm : Option (List Bool))
    (hoffs : ∀ o ∈ offsets, o ≤ vs.length)
    (hinj : ∀ x ∈ vs, ∀ y ∈ vs, h x = h y → x = y) :
    executeBy h vs offsets nm = executeBy id vs offsets nm := by
  unfold executeBy
  suffices hgen : ∀ offs, (∀ o ∈ offs, o ≤ vs.length) → ∀ prev r0,
      blockLoop h vs nm offs prev r0 = blockLoop id vs nm offs prev r0 from
    hgen offsets hoffs 0 0
  intro offs
  induction offs with
  | nil => intro _ prev r0; rfl
  | cons c rest ih =>
    intro hoffs' prev r0
    have hrow : distinctRow h vs nm prev c = distinctRow id vs nm prev c := by
      unfold distinctRow
      refine rowLoop_key_inj h vs nm hinj _ ?_ [] (by simp)
      intro j hj
      rw [List.mem_range'_1] at hj
      have hc : c ≤ vs.length := hoffs' c (List.mem_cons_self c rest)
      omega
    simp only [blockLoop]
    rw [hrow, ih (fun o ho => hoffs' o (List.mem_cons_of_mem c ho))]

/-- C7: on a block whose elements are collision-free under the 128-bit content
hash, the generic-hash fallback produces exactly the output of the matching
specific strategy (numeric or string); under a collision, the fallback treats
the two distinct values as duplicates and keeps only the first. -/
theorem claim7_hash_refinement :
    (∀ (h : Nat → U128) (vs : List Nat) (offsets : List Nat) (nm : Option (List Bool)),
        (∀ o ∈ offsets, o ≤ vs.length) →
        (∀ x ∈ vs, ∀ y ∈ vs, h x = h y → x = y) →
        executeHashed h vs offsets nm = executeNumber vs offsets nm)
    ∧ (∀ (h : List Nat → U128) (vs : List (List Nat)) (offsets : List Nat)
          (nm : Option (List Bool)),
        (∀ o ∈ offsets, o ≤ vs.length) →
        (∀ x ∈ vs, ∀ y ∈ vs, h x = h y → x = y) →
        executeHashed h vs offsets nm = executeString vs offsets nm)
    ∧ (∀ (h : Nat → U128) (a b : Nat), a ≠ b → h a = h b →
        executeHashed h [a, b] [2] none = ([a], [1])) := by
  refine ⟨?_, ?_, ?_⟩
  · intro h vs offsets nm hoffs hinj
    unfold executeHashed executeNumber
    exact executeBy_key_inj h vs offsets nm hoffs hinj
  · intro h vs offsets nm hoffs hinj
    unfold executeHashed executeString
    exact executeBy_key_inj h vs offsets nm hoffs hinj
  · intro h a b _ hcoll
    simp [executeHashed, executeBy, blockLoop, distinctRow, rowLoop, valueAt,
      isNullAt, List.range', hcoll.symm]

/-- Witness for C7: an injective hash on `[3, 3, 5]` and a constant (always
colliding) hash on `[0, 1]`. -/
theorem claim7_witness :
    executeHashed modHash [3, 3, 5] [3] none = executeNumber [3, 3, 5] [3] none
    ∧ executeHashed constHash [0, 1] [2] none = ([0], [1]) :=
  ⟨claim7_hash_refinement.1 modHash [3, 3, 5] [3] none (by decide) (by decide),
   claim7_hash_refinement.2.2 constHash 0 1 (by decide) rfl⟩

theorem chainLe_getD (p : Nat) (offs : List Nat) (hc : chainLe p offs = true)
    (i : Nat) (h : i < offs.length) :
    (if i = 0 then p else offs.getD (i - 1) 0) ≤ offs.getD i 0 := by
  induction offs generalizing p i with
  | nil => simp at h
  | cons c rest ih =>
    unfold chainLe at hc
    rw [Bool.and_eq_true, decide_eq_true_eq] at hc
    cases i with
    | zero => simpa using hc.1
    | succ k =>
      have hk := ih c hc.2 k (by simpa using h)
      cases k with
      | zero => simpa using hk
      | succ m => simpa using hk

theorem executeBy_segment [Inhabited α] [DecidableEq κ] (key : α → κ) (vs : List α)
    (nm : Option (List Bool)) (offsets : List Nat) (i : Nat)
    (h : i < offsets.length) :
    segOf (executeBy key vs offsets nm).1 (executeBy key vs offsets nm).2 i
      = distinctRow key vs nm (prevOffset offsets i) (offsets.getD i 0) := by
  rw [executeBy_fst, executeBy_snd,
    segOf_flatten _ i (by rw [rowOuts_length]; exact h),
    rowOuts_getD key vs nm offsets 0 i h]
  rfl

theorem executeBy_single [Inhabited α] [DecidableEq κ] (key : α → κ) (vs' : List α)
    (nm' : Option (List Bool)) (n : Nat) :
    executeBy key vs' [n] nm'
      = (distinctRow key vs' nm' 0 n, [(distinctRow key vs' nm' 0 n).length]) := by
  simp [executeBy, blockLoop]

theorem withNulls_slice (vs : List α) (nm : Option (List Bool))
    (hnm : wfNullMap vs.length nm) (lo n : Nat) (hn : lo + n ≤ vs.length) :
    withNulls ((vs.drop lo).take n) (nm.map fun m => (m.drop lo).take n)
      = ((withNulls vs nm).drop lo).take n := by
  cases nm with
  | none =>
    simp only [withNulls, Option.map_none']
    rw [List.map_take, List.map_drop]
  | some m =>
    have hm : m.length = vs.length := hnm m rfl
    simp only [withNulls, Option.map_some']
    refine List.ext_getElem ?_ ?_
    · rw [List.length_zip, List.length_take, List.length_take, List.length_take,
        List.length_drop, List.length_drop, List.length_drop, List.length_zip, hm]
      omega
    · intro j h1 h2
      have hjv : lo + j < vs.length := by
        rw [List.length_zip, List.length_take, List.length_take, List.length_drop,
          List.length_drop, hm] at h1
        omega
      rw [List.getElem_zip, List.getElem_take, List.getElem_take, List.getElem_drop,
        List.getElem_drop, List.getElem_take, List.getElem_drop, List.getElem_zip]

theorem distinctRow_shift [Inhabited α] [DecidableEq κ] (key : α → κ) (vs : List α)
    (nm : Option (List Bool)) (hnm : wfNullMap vs.length nm) (lo hi : Nat)
    (hle : lo ≤ hi) (hhi : hi ≤ vs.length) :
    distinctRow key vs nm lo hi
      = distinctRow key ((vs.drop lo).take (hi - lo))
          (nm.map fun m => (m.drop lo).take (hi - lo)) 0 (hi - lo) := by
  have hslen : ((vs.drop lo).take (hi - lo)).length = hi - lo := by
    rw [List.length_take, List.length_drop]
    omega
  have hnm' : wfNullMap ((vs.drop lo).take (hi - lo)).length
      (nm.map fun m => (m.drop lo).take (hi - lo)) := by
    intro m' hm'
    cases nm with
    | none => cases hm'
    | some m =>
      have hm : m.length = vs.length := hnm m rfl
      simp only [Option.map_some', Option.some_inj] at hm'
      rw [← hm', hslen, List.length_take, List.length_drop]
      omega
  unfold distinctRow
  rw [Nat.sub_zero,
    rowLoop_eq_pairPass key vs nm hnm (hi - lo) lo [] (by omega),
    rowLoop_eq_pairPass key _ _ hnm' (hi - lo) 0 [] (by rw [hslen]; omega),
    List.drop_zero, withNulls_slice vs nm hnm lo (hi - lo) (by omega),
    List.take_take, min_self]

/-- C10: rows are processed independently: under a well-formed input block,
each output row segment and offset delta equals the output of running the same
strategy on the single-row block holding just that row's data slice and null
slice. -/
theorem claim10_row_independence [Inhabited α] [DecidableEq κ] (key : α → κ)
    (vs : List α) (nm : Option (List Bool)) (offsets : List Nat) (i : Nat)
    (h : i < offsets.length) (hwf : wfBlock vs.length offsets nm = true) :
    segOf (executeBy key vs offsets nm).1 (executeBy key vs offsets nm).2 i
      = (executeBy key
          ((vs.drop (prevOffset offsets i)).take
            (offsets.getD i 0 - prevOffset offsets i))
          [offsets.getD i 0 - prevOffset offsets i]
          (nm.map fun m => (m.drop (prevOffset offsets i)).take
            (offsets.getD i 0 - prevOffset offsets i))).1
    ∧ (executeBy key vs offsets nm).2.getD i 0
        - prevOffset (executeBy key vs offsets nm).2 i
      = (executeBy key
          ((vs.drop (prevOffset offsets i)).take
            (offsets.getD i 0 - prevOffset offsets i))
          [offsets.getD i 0 - prevOffset offsets i]
          (nm.map fun m => (m.drop (prevOffset offsets i)).take
            (offsets.getD i 0 - prevOffset offsets i))).2.getD 0 0 := by
  unfold wfBlock at hwf
  rw [Bool.and_eq_true, Bool.and_eq_true] at hwf
  have hchain := hwf.1.1
  have hall := hwf.1.2
  rw [List.all_eq_true] at hall
  have hnm : wfNullMap vs.length nm := by
    intro m hm
    subst hm
    simpa using hwf.2
  have hle : prevOffset offsets i ≤ offsets.getD i 0 := by
    have := chainLe_getD 0 offsets hchain i h
    unfold prevOffset
    exact this
  have hhi : offsets.getD i 0 ≤ vs.length := by
    have hmem : offsets.getD i 0 ∈ offsets := by
      rw [List.getD_eq_getElem _ _ h]
      exact List.getElem_mem h
    simpa using hall _ hmem
  have hshift := distinctRow_shift key vs nm hnm (prevOffset offsets i)
    (offsets.getD i 0) hle hhi
  constructor
  · rw [executeBy_segment key vs nm offsets i h, executeBy_single, hshift]
  · rw [executeBy_delta key vs nm offsets i h, executeBy_single, hshift]
    rfl

/-- Witness for C10 at row 1 of the block `[[6], [7, 7]]`. -/
theorem claim10_witness :
    segOf (executeBy id [6, 7, 7] [1, 3] none).1 (executeBy id [6, 7, 7] [1, 3] none).2 1
      = (executeBy id (([6, 7, 7].drop (prevOffset [1, 3] 1)).take
            ([1, 3].getD 1 0 - prevOffset [1, 3] 1))
          [[1, 3].getD 1 0 - prevOffset [1, 3] 1]
          ((none : Option (List Bool)).map fun m => (m.drop (prevOffset [1, 3] 1)).take
            ([1, 3].getD 1 0 - prevOffset [1, 3] 1))).1
    ∧ (executeBy id [6, 7, 7] [1, 3] none).2.getD 1 0
        - prevOffset (executeBy id [6, 7, 7] [1, 3] none).2 1
      = (executeBy id (([6, 7, 7].drop (prevOffset [1, 3] 1)).take
            ([1, 3].getD 1 0 - prevOffset [1, 3] 1))
          [[1, 3].getD 1 0 - prevOffset [1, 3] 1]
          ((none : Option (List Bool)).map fun m => (m.drop (prevOffset [1, 3] 1)).take
            ([1, 3].getD 1 0 - prevOffset [1, 3] 1))).2.getD 0 0 :=
  claim10_row_independence id [6, 7, 7] none [1, 3] 1 (by decide) (by decide)

end ArrayDistinct
